import Mathlib

/-!
Verification of the mirror-latency probing subsystem of `nala/fetch.py`:
the Internet checksum `chk`, the ICMP echo prober `ping`, the per-mirror
worker `net_select`, and the fan-out / ranking logic of `fetch`.
Byte strings are modelled as `List Nat` (each element one byte) and Python
strings as `List Char`.
-/

namespace Nala

/-- Characters of a string literal, used for concrete inputs. -/
def cs (s : String) : List Char := s.data

/-- Byte sum inside `chk` (fetch.py line 15): Python sums
`x << 8 if i % 2 else x` over `enumerate(data)`; the first argument is the
index of the head of the remaining list. -/
def sumIcmp : Nat → List Nat → Nat
  | _, [] => 0
  | i, b :: rest => (if i % 2 = 1 then b <<< 8 else b) + sumIcmp (i + 1) rest

/-- One carry fold `(x >> 16) + (x & 0xFFFF)` (fetch.py lines 16-17). -/
def fold1 (x : Nat) : Nat := (x >>> 16) + x % 65536

/-- Internet checksum of fetch.py lines 14-18: the byte sum masked to 32 bits,
two carry folds, the one's complement masked to 16 bits (`~x & 0xFFFF`),
emitted as the two bytes of `struct.pack('<H', c)`. -/
def chk (data : List Nat) : List Nat :=
  let x0 := sumIcmp 0 data % 4294967296
  let x2 := fold1 (fold1 x0)
  let c := 65535 - x2 % 65536
  [c % 256, c / 256]

/-- Word sum with the convention of claim C1's words: `data` is a sequence of
big-endian 16-bit words, an odd final byte forms a word with its low byte
implicitly zero. -/
def sumBE : List Nat → Nat
  | [] => 0
  | [a] => a * 256
  | a :: b :: rest => a * 256 + b + sumBE rest

/-- Carry folding as claim C1 words it: the high 16 bits are added into the
low 16 bits until the value fits in 16 bits. -/
def foldCarry (x : Nat) : Nat :=
  if h : x < 65536 then x else foldCarry (x / 65536 + x % 65536)
termination_by x
decreasing_by omega

/-- Checksum computed exactly as claim C1 describes it: big-endian words,
unsigned 32-bit accumulation, carries folded until the value fits in 16 bits,
one's complement masked to 16 bits, the two bytes emitted in network order. -/
def specChk (data : List Nat) : List Nat :=
  let s := foldCarry (sumBE data % 4294967296)
  let c := 65535 - s % 65536
  [c / 256, c % 256]

/-- Echo reply expected on fetch.py line 32: type 0, code 0, the checksum
recomputed over the reply with a zeroed checksum field, then the original
payload (identifier, sequence and data). -/
def expectedReply (payload : List Nat) : List Nat :=
  0 :: 0 :: (chk (0 :: 0 :: 0 :: 0 :: payload) ++ payload)

/-- Total length declared in the IP header of a received datagram:
`struct.unpack_from('!xxH', data)[0]` on fetch.py line 30 reads bytes 2 and 3
big-endian. -/
def declaredLen (d : List Nat) : Nat := 256 * d.getD 2 0 + d.getD 3 0

/-- Receive loop of fetch.py lines 28-33 over a trace of timed datagram
arrivals. The `select` budget is recomputed as `start + timeout - now` on
every wake, so an arrival past `start + timeout` is never seen and the loop
falls through to Python's implicit `None`; earlier arrivals are checked in
order: too-short datagrams are skipped and a byte-exact match from offset 20
returns the elapsed time. -/
def pingLoop (payload : List Nat) (start timeout : ℚ) :
    List (ℚ × List Nat) → Option ℚ
  | [] => none
  | (t, d) :: rest =>
    if t ≤ start + timeout then
      if d.length < 20 ∨ d.length < declaredLen d then
        pingLoop payload start timeout rest
      else if d.drop 20 = expectedReply payload then some (t - start)
      else pingLoop payload start timeout rest
    else none

/-- Character class `[A-Za-z_0-9.-]` of the regex on fetch.py line 38. -/
def isDomChar (c : Char) : Bool :=
  ('A' ≤ c && c ≤ 'Z') || ('a' ≤ c && c ≤ 'z') || c == '_' ||
    ('0' ≤ c && c ≤ '9') || c == '.' || c == '-'

/-- Prefix test: does the second list start with the first one. -/
def startsWith : List Char → List Char → Bool
  | [], _ => true
  | _ :: _, [] => false
  | p :: ps, s :: ss => p == s && startsWith ps ss

/-- Attempt of the pattern `https?://([A-Za-z_0-9.-]+).*` at one position:
the greedy `s?` tries `https` before `http`, the group takes the maximal
nonempty run of class characters, and the trailing `.*` always matches. -/
def matchAt (s : List Char) : Option (List Char) :=
  if startsWith (cs "https://") s then
    let d := (s.drop 8).takeWhile isDomChar
    if d.isEmpty then none else some d
  else if startsWith (cs "http://") s then
    let d := (s.drop 7).takeWhile isDomChar
    if d.isEmpty then none else some d
  else none

/-- Leftmost search of `re.search('https?://([A-Za-z_0-9.-]+).*', host)`
(fetch.py line 38), returning group 1. -/
def regexDomain : List Char → Option (List Char)
  | [] => none
  | c :: rest =>
    match matchAt (c :: rest) with
    | some d => some d
    | none => regexDomain rest

/-- Decimal rendering of a number, as Python `str`. -/
def pyStr (n : Nat) : List Char := Nat.toDigits 10 n

/-- Latency field of fetch.py lines 44-48: a two-character value gets one
leading zero; line 48 (`res == '00'+res`) only compares and discards the
result, so a one-character value is left unchanged. -/
def fmtLatency (ms : Nat) : List Char :=
  let res := pyStr ms
  let res := if res.length = 2 then '0' :: res else res
  res

/-- Score entry `f'{res} {host}'` appended on fetch.py line 49. -/
def scoreEntry (ms : Nat) (host : List Char) : List Char :=
  fmtLatency ms ++ ' ' :: host

/-- Exception kinds relevant to fetch.py lines 50-56. `permissionDenied`
stands for the `PermissionError` raised when the raw ICMP socket cannot be
opened without privilege; like `ConnectionRefusedError` and `socket.gaierror`
it is a subclass of `OSError`, while `NameError` is not. -/
inductive PyExc
  | nameError
  | gaierror
  | permissionDenied
  | otherOSError
  | connectionRefused
deriving DecidableEq, Repr

/-- Outcome of one `ping(domain)` call as observed by `net_select`: a latency
in milliseconds, no response, or a raised exception. -/
inductive PingBehavior
  | returns (r : Option Nat)
  | raises (e : PyExc)

/-- Clause `except (socket.gaierror, OSError, ConnectionRefusedError)` of
fetch.py line 50: every `OSError` subclass is caught, `PermissionError`
included; `NameError` is not among the caught kinds. -/
def isCaught : PyExc → Bool
  | .nameError => false
  | _ => true

/-- Result of one `net_select` worker: normal return (with or without an
appended entry), a caught-and-logged error, or a propagating exception. -/
inductive NetOutcome
  | ok (entry : Option (List Char))
  | handled (e : PyExc)
  | uncaught (e : PyExc)
deriving DecidableEq, Repr

/-- Worker of fetch.py lines 35-56. When the regex finds no domain, `domain`
stays unbound and the use on line 42 raises `NameError`, which the `except`
clause does not list; a caught error is logged and the worker returns; a
truthy latency appends one score entry. -/
def net_select (pinger : List Char → PingBehavior) (host : List Char) :
    NetOutcome :=
  match regexDomain host with
  | none =>
    if isCaught .nameError then .handled .nameError else .uncaught .nameError
  | some domain =>
    match pinger domain with
    | .raises e => if isCaught e then .handled e else .uncaught e
    | .returns none => .ok none
    | .returns (some ms) => .ok (some (scoreEntry ms host))

/-- Entries appended to the shared `netselect_scored` list by the workers
started in fetch.py lines 186-197, taken in the scheduling order given. -/
def collectNet (pinger : List Char → PingBehavior)
    (mirrors : List (List Char)) : List (List Char) :=
  mirrors.filterMap fun h =>
    match net_select pinger h with
    | .ok (some e) => some e
    | _ => none

/-- Number of mirrors whose worker appends an entry. -/
def respondCount (pinger : List Char → PingBehavior)
    (mirrors : List (List Char)) : Nat :=
  mirrors.countP fun h =>
    match net_select pinger h with
    | .ok (some _) => true
    | _ => false

/-- Python string comparison: lexicographic by code point. -/
def strLe : List Char → List Char → Bool
  | [], _ => true
  | _ :: _, [] => false
  | a :: as, b :: bs => if a < b then true else if b < a then false else strLe as bs

/-- Order on score entries used by `netselect_scored.sort()`. -/
def entryRel (a b : List Char) : Prop := strLe a b = true

instance : DecidableRel entryRel := fun a b =>
  inferInstanceAs (Decidable (strLe a b = true))

/-- The in-place ascending `netselect_scored.sort()` of fetch.py line 199. -/
def sortScored (l : List (List Char)) : List (List Char) :=
  List.insertionSort entryRel l

/-- Conversion of a written line back to its URL on fetch.py line 207:
`line[line.index('h'):]`; `index` raises `ValueError` when the line holds
no `'h'`. -/
def stripToURL (line : List Char) : Option (List Char) :=
  if line.any (fun c => c == 'h') then
    some (line.dropWhile fun c => !(c == 'h'))
  else none

/-- Writing loop of fetch.py lines 201-213 applied to the lines it visits:
each is converted in turn and a `ValueError` aborts the run with no result. -/
def writeLines : List (List Char) → Option (List (List Char))
  | [] => some []
  | l :: rest =>
    match stripToURL l with
    | none => none
    | some u => (writeLines rest).map (u :: ·)

/-- Ranking selector of fetch.py lines 199-213: sort the collected entries
ascending, visit the first `fetches` of them (the loop breaks once
`num == fetches`), convert each back to a URL. -/
def selector (scored : List (List Char)) (fetches : Nat) :
    Option (List (List Char)) :=
  writeLines ((sortScored scored).take fetches)

/-- One fetch run acting on the module-global accumulator `netselect_scored`
(fetch.py line 12): the workers append their entries after the existing
contents and line 199 then sorts the global list in place. -/
def fetchRunState (pinger : List Char → PingBehavior)
    (mirrors : List (List Char)) (state : List (List Char)) :
    List (List Char) :=
  sortScored (state ++ collectNet pinger mirrors)

/-- Pairwise form of the byte sum of `chk` when started at an even index:
each byte pair contributes `low + high * 256`, a little-endian word. -/
def sumLE : List Nat → Nat
  | [] => 0
  | [a] => a
  | a :: b :: rest => a + b * 256 + sumLE rest

/-- Alternating bytes `255, 0` repeated `n` times: a 2n-byte input whose
32-bit-masked word sums overflow differently in the two byte orders. -/
def ffz : Nat → List Nat
  | 0 => []
  | n + 1 => 255 :: 0 :: ffz n

/-- Pinger used for concrete runs: host `b` answers in 10 ms, host `a` in
999 ms, everything else times out. -/
def demoPinger (d : List Char) : PingBehavior :=
  if d = cs "b" then .returns (some 10)
  else if d = cs "a" then .returns (some 999)
  else .returns none

/-- A well-formed reply datagram for payload `[0, 1]`: a 20-byte IP header
declaring total length 26, followed by the expected echo reply. -/
def goodDgram : List Nat :=
  [0, 0, 0, 26] ++ List.replicate 16 0 ++ expectedReply [0, 1]

/-! ## Checksum lemmas -/

/-- Induction principle stepping through a list two elements at a time. -/
theorem twoStepInduction {α : Type} {P : List α → Prop} (h0 : P [])
    (h1 : ∀ a, P [a]) (h2 : ∀ a b rest, P rest → P (a :: b :: rest)) :
    ∀ l, P l
  | [] => h0
  | [a] => h1 a
  | a :: b :: rest => h2 a b rest (twoStepInduction h0 h1 h2 rest)

theorem sumIcmp_even : ∀ (l : List Nat) (k : Nat), sumIcmp (2 * k) l = sumLE l := by
  refine twoStepInduction ?_ ?_ ?_
  · intro _; rfl
  · intro a k
    simp only [sumIcmp, sumLE]
    rw [if_neg (by omega : ¬ (2 * k) % 2 = 1)]
    omega
  · intro a b rest ih k
    simp only [sumIcmp, sumLE]
    rw [if_neg (by omega : ¬ (2 * k) % 2 = 1),
      if_pos (by omega : (2 * k + 1) % 2 = 1),
      (by ring : 2 * k + 1 + 1 = 2 * (k + 1)), ih (k + 1), Nat.shiftLeft_eq]
    norm_num
    try ring

theorem sumIcmp_eq_sumLE (l : List Nat) : sumIcmp 0 l = sumLE l := by
  have h := sumIcmp_even l 0
  simpa using h

theorem fold1_eq (x : Nat) : fold1 x = x / 65536 + x % 65536 := by
  unfold fold1
  rw [Nat.shiftRight_eq_div_pow]
  try norm_num

theorem fold1_mod (x : Nat) : fold1 x % 65535 = x % 65535 := by
  rw [fold1_eq]; omega

theorem fold1_zero (x : Nat) : fold1 x = 0 ↔ x = 0 := by
  rw [fold1_eq]; omega

theorem fold2_le (x : Nat) (h : x < 4294967296) : fold1 (fold1 x) ≤ 65535 := by
  rw [fold1_eq, fold1_eq]; omega

theorem fold2_drop (x : Nat) (h : x < 4294967296) :
    x ≤ fold1 (fold1 x) + 4294901760 := by
  rw [fold1_eq, fold1_eq]; omega

theorem fold2_mod (x : Nat) : fold1 (fold1 x) % 65535 = x % 65535 := by
  rw [fold1_mod, fold1_mod]

theorem fold2_zero (x : Nat) : fold1 (fold1 x) = 0 ↔ x = 0 := by
  rw [fold1_zero, fold1_zero]

theorem foldCarry_eq_fold2 (x : Nat) (h : x < 4294967296) :
    foldCarry x = fold1 (fold1 x) := by
  by_cases h1 : x < 65536
  · rw [foldCarry, dif_pos h1, fold1_eq, fold1_eq]
    omega
  · rw [foldCarry, dif_neg h1]
    by_cases h2 : x / 65536 + x % 65536 < 65536
    · rw [foldCarry, dif_pos h2, fold1_eq, fold1_eq]
      omega
    · rw [foldCarry, dif_neg h2, foldCarry,
        dif_pos (by omega : (x / 65536 + x % 65536) / 65536 +
          (x / 65536 + x % 65536) % 65536 < 65536),
        fold1_eq, fold1_eq]
      try omega

theorem sumLE_le : ∀ l : List Nat, (∀ b ∈ l, b ≤ 255) →
    sumLE l ≤ 65535 * ((l.length + 1) / 2) := by
  refine twoStepInduction ?_ ?_ ?_
  · intro _; simp [sumLE]
  · intro a h
    have ha := h a (by simp)
    simp only [sumLE, List.length_singleton]
    omega
  · intro a b rest ih h
    have ha := h a (by simp)
    have hb := h b (by simp)
    have ihr := ih (fun x hx => h x (by simp [hx]))
    simp only [sumLE, List.length_cons]
    omega

theorem sumBE_le : ∀ l : List Nat, (∀ b ∈ l, b ≤ 255) →
    sumBE l ≤ 65535 * ((l.length + 1) / 2) := by
  refine twoStepInduction ?_ ?_ ?_
  · intro _; simp [sumBE]
  · intro a h
    have ha := h a (by simp)
    simp only [sumBE, List.length_singleton]
    omega
  · intro a b rest ih h
    have ha := h a (by simp)
    have hb := h b (by simp)
    have ihr := ih (fun x hx => h x (by simp [hx]))
    simp only [sumBE, List.length_cons]
    omega

theorem sumLE_mod : ∀ l : List Nat, sumLE l % 65535 = (256 * sumBE l) % 65535 := by
  refine twoStepInduction ?_ ?_ ?_
  · rfl
  · intro a
    simp only [sumLE, sumBE]
    omega
  · intro a b rest ih
    simp only [sumLE, sumBE]
    omega

theorem sumBE_zero : ∀ l : List Nat, sumBE l = 0 ↔ sumLE l = 0 := by
  refine twoStepInduction ?_ ?_ ?_
  · simp [sumBE, sumLE]
  · intro a; simp only [sumBE, sumLE]; omega
  · intro a b rest ih; simp only [sumBE, sumLE]; omega

theorem chk_shape (l : List Nat) : chk l =
    [(65535 - fold1 (fold1 (sumIcmp 0 l % 4294967296)) % 65536) % 256,
     (65535 - fold1 (fold1 (sumIcmp 0 l % 4294967296)) % 65536) / 256] := rfl

theorem specChk_shape (l : List Nat) : specChk l =
    [(65535 - foldCarry (sumBE l % 4294967296) % 65536) / 256,
     (65535 - foldCarry (sumBE l % 4294967296) % 65536) % 256] := rfl

theorem sumIcmp_ffz : ∀ (n k : Nat), sumIcmp (2 * k) (ffz n) = 255 * n := by
  intro n
  induction n with
  | zero => intro k; rfl
  | succ m ih =>
    intro k
    show sumIcmp (2 * k) (255 :: 0 :: ffz m) = _
    simp only [sumIcmp]
    rw [if_neg (by omega : ¬ (2 * k) % 2 = 1),
      if_pos (by omega : (2 * k + 1) % 2 = 1),
      (by ring : 2 * k + 1 + 1 = 2 * (k + 1)), ih (k + 1), Nat.shiftLeft_eq]
    ring

theorem sumBE_ffz : ∀ n : Nat, sumBE (ffz n) = 65280 * n := by
  intro n
  induction n with
  | zero => rfl
  | succ m ih =>
    show sumBE (255 :: 0 :: ffz m) = _
    simp only [sumBE, ih]
    ring

/-- C1 counterexample core: on 131588 bytes of alternating `255, 0` the code's
little-endian sum does not overflow 32 bits while the spec's big-endian sum
does, and the two byte pairs differ. -/
theorem c1_counterexample : chk (ffz 65794) ≠ specChk (ffz 65794) := by
  have h1 : sumIcmp 0 (ffz 65794) = 16777470 := by
    have h := sumIcmp_ffz 65794 0
    norm_num at h
    simpa using h
  have h2 : sumBE (ffz 65794) = 4295032320 := by
    have h := sumBE_ffz 65794
    norm_num at h
    exact h
  have hfc : foldCarry 65024 = 65024 := by
    rw [foldCarry]
    norm_num
  rw [chk_shape, specChk_shape, h1, h2]
  norm_num [fold1_eq, hfc]

/-- Final byte comparison: when the code's folded value is the byte swap of
the spec's folded value, the emitted byte pairs agree. -/
theorem swab_bytes (vL vB : Nat) (hL : vL ≤ 65535) (hB : vB ≤ 65535)
    (hswab : vL = (vB % 256) * 256 + vB / 256) :
    (65535 - vL % 65536) % 256 = (65535 - vB % 65536) / 256 ∧
    (65535 - vL % 65536) / 256 = (65535 - vB % 65536) % 256 := by
  have hLm : vL % 65536 = vL := Nat.mod_eq_of_lt (by omega)
  have hBm : vB % 65536 = vB := Nat.mod_eq_of_lt (by omega)
  rw [hLm, hBm]
  have hhi : vB / 256 ≤ 255 := by omega
  have hlo : vB % 256 ≤ 255 := by omega
  have h1 : 65535 - vL = 256 * (255 - vB % 256) + (255 - vB / 256) := by omega
  have h2 : 65535 - vB = 256 * (255 - vB / 256) + (255 - vB % 256) := by omega
  rw [h1, h2]
  constructor
  · rw [Nat.mul_add_mod]
    rw [Nat.mul_add_div (by norm_num : 0 < 256)]
    have := Nat.mod_eq_of_lt (by omega : 255 - vB / 256 < 256)
    omega
  · rw [Nat.mul_add_div (by norm_num : 0 < 256)]
    rw [Nat.mul_add_mod]
    have := Nat.mod_eq_of_lt (by omega : 255 - vB % 256 < 256)
    omega

/-- C1 amended: for inputs whose word sums stay below 2^32 — in particular any
byte string of at most 131072 bytes — `chk` emits exactly the two bytes of the
big-endian RFC 1071 computation placed in network order. -/
theorem chk_matches_bigEndianSpec (data : List Nat)
    (hb : ∀ b ∈ data, b ≤ 255) (hl : data.length ≤ 131072) :
    chk data = specChk data := by
  have hhalf : (data.length + 1) / 2 ≤ 65536 := by omega
  have hL : sumLE data ≤ 4294901760 := by
    have h1 := sumLE_le data hb
    have h2 : 65535 * ((data.length + 1) / 2) ≤ 65535 * 65536 :=
      Nat.mul_le_mul_left _ hhalf
    omega
  have hB : sumBE data ≤ 4294901760 := by
    have h1 := sumBE_le data hb
    have h2 : 65535 * ((data.length + 1) / 2) ≤ 65535 * 65536 :=
      Nat.mul_le_mul_left _ hhalf
    omega
  have hmL : sumIcmp 0 data % 4294967296 = sumLE data := by
    rw [sumIcmp_eq_sumLE]
    exact Nat.mod_eq_of_lt (by omega)
  have hmB : sumBE data % 4294967296 = sumBE data := Nat.mod_eq_of_lt (by omega)
  rw [chk_shape, specChk_shape, hmL, hmB,
    foldCarry_eq_fold2 _ (by omega : sumBE data < 4294967296)]
  have hvLle : fold1 (fold1 (sumLE data)) ≤ 65535 := fold2_le _ (by omega)
  have hvBle : fold1 (fold1 (sumBE data)) ≤ 65535 := fold2_le _ (by omega)
  have hcongL : fold1 (fold1 (sumLE data)) % 65535 = sumLE data % 65535 :=
    fold2_mod _
  have hcongB : fold1 (fold1 (sumBE data)) % 65535 = sumBE data % 65535 :=
    fold2_mod _
  have hmod := sumLE_mod data
  have hzs := sumBE_zero data
  have hzL := fold2_zero (sumLE data)
  have hzB := fold2_zero (sumBE data)
  set vL := fold1 (fold1 (sumLE data)) with hvL
  set vB := fold1 (fold1 (sumBE data)) with hvB
  have hmul : (256 * vB) % 65535 = (256 * sumBE data) % 65535 :=
    Nat.ModEq.mul_left 256 hcongB
  have hswabmod : ((vB % 256) * 256 + vB / 256) % 65535 = (256 * vB) % 65535 := by
    omega
  have hkey : vL % 65535 = ((vB % 256) * 256 + vB / 256) % 65535 := by
    rw [hcongL, hmod, ← hmul, ← hswabmod]
  have hswab : vL = (vB % 256) * 256 + vB / 256 := by
    by_cases hz : sumBE data = 0
    · have hsl : sumLE data = 0 := hzs.mp hz
      have hl0 : vL = 0 := hzL.mpr hsl
      have hb0 : vB = 0 := hzB.mpr hz
      omega
    · have hSLnz : sumLE data ≠ 0 := fun h => hz (hzs.mpr h)
      have hvLnz : vL ≠ 0 := fun h => hSLnz (hzL.mp h)
      have hvBnz : vB ≠ 0 := fun h => hz (hzB.mp h)
      clear hcongL hcongB hmod hmul hswabmod hzs hzL hzB hL hB hmL hmB hhalf hl hb
      omega
  obtain ⟨e1, e2⟩ := swab_bytes vL vB hvLle hvBle hswab
  rw [e1, e2]

/-- Byte sum of a list whose first four bytes are explicit. -/
theorem sumIcmp_four (t c x y : Nat) (p : List Nat) :
    sumIcmp 0 (t :: c :: x :: y :: p) =
      t + c * 256 + x + y * 256 + sumIcmp 4 p := by
  simp only [sumIcmp]
  norm_num [Nat.shiftLeft_eq]
  ring

theorem sumIcmp_replicate_zero : ∀ (n i : Nat),
    sumIcmp i (List.replicate n 0) = 0 := by
  intro n
  induction n with
  | zero => intro i; rfl
  | succ m ih =>
    intro i
    simp [List.replicate_succ, sumIcmp, ih]

/-- Splicing the computed checksum into the zeroed checksum field (bytes 2
and 3) yields a packet whose checksum is zero, for every header byte pair and
every payload. -/
theorem chk_append_checksum (t c : Nat) (p : List Nat) :
    chk (t :: c :: (chk (t :: c :: 0 :: 0 :: p) ++ p)) = [0, 0] := by
  have hsum0 : sumIcmp 0 (t :: c :: 0 :: 0 :: p) = t + c * 256 + sumIcmp 4 p := by
    rw [sumIcmp_four]
    ring
  obtain ⟨X, hXdef, hXlt⟩ :
      ∃ X, (t + c * 256 + sumIcmp 4 p) % 4294967296 = X ∧ X < 4294967296 :=
    ⟨_, rfl, Nat.mod_lt _ (by norm_num)⟩
  obtain ⟨s, hsdef⟩ : ∃ s, fold1 (fold1 X) = s := ⟨_, rfl⟩
  have hsle : s ≤ 65535 := hsdef ▸ fold2_le X hXlt
  have hdrop : X ≤ s + 4294901760 := hsdef ▸ fold2_drop X hXlt
  have hsmod : s % 65535 = X % 65535 := hsdef ▸ fold2_mod X
  have hinner : chk (t :: c :: 0 :: 0 :: p) =
      [(65535 - s) % 256, (65535 - s) / 256] := by
    rw [chk_shape, hsum0, hXdef, hsdef,
      Nat.mod_eq_of_lt (show s < 65536 by omega)]
  rw [hinner]
  simp only [List.cons_append, List.nil_append]
  rw [chk_shape, sumIcmp_four]
  have hsum1 : t + c * 256 + (65535 - s) % 256 + (65535 - s) / 256 * 256 +
      sumIcmp 4 p = t + c * 256 + sumIcmp 4 p + (65535 - s) := by omega
  rw [hsum1]
  have hmask : (t + c * 256 + sumIcmp 4 p + (65535 - s)) % 4294967296 =
      X + (65535 - s) := by omega
  rw [hmask]
  obtain ⟨s1, hs1def⟩ : ∃ y, fold1 (fold1 (X + (65535 - s))) = y := ⟨_, rfl⟩
  rw [hs1def]
  have hs1le : s1 ≤ 65535 := hs1def ▸ fold2_le _ (by omega)
  have hs1mod : s1 % 65535 = (X + (65535 - s)) % 65535 := hs1def ▸ fold2_mod _
  have hXvne : X + (65535 - s) ≠ 0 := by
    intro h
    have hX0 : X = 0 := by omega
    have hs0 : s = 0 := by
      have hz := fold2_zero X
      rw [hsdef] at hz
      exact hz.mpr hX0
    omega
  have hs1ne : s1 ≠ 0 := by
    intro h
    apply hXvne
    have hz := fold2_zero (X + (65535 - s))
    rw [hs1def] at hz
    exact hz.mp h
  have hs1eq : s1 = 65535 := by omega
  rw [hs1eq]
  try norm_num

/-- The checksum of an all-zero even-length payload is `0xFFFF`, emitted as
the byte pair `FF FF`. -/
theorem chk_zero_replicate (n : Nat) : chk (List.replicate (2 * n) 0) = [255, 255] := by
  rw [chk_shape, sumIcmp_replicate_zero]
  norm_num [fold1_eq]

/-! ## Lexicographic order on entries -/

theorem strLe_total : ∀ a b : List Char, strLe a b = true ∨ strLe b a = true := by
  intro a
  induction a with
  | nil => intro b; left; rfl
  | cons x xs ih =>
    intro b
    cases b with
    | nil => right; rfl
    | cons y ys =>
      simp only [strLe]
      rcases lt_trichotomy x y with h | h | h
      · left; rw [if_pos h]
      · subst h
        rw [if_neg (lt_irrefl x), if_neg (lt_irrefl x),
          if_neg (lt_irrefl x), if_neg (lt_irrefl x)]
        exact ih ys
      · right; rw [if_pos h]

theorem strLe_trans : ∀ a b c : List Char, strLe a b = true →
    strLe b c = true → strLe a c = true := by
  intro a
  induction a with
  | nil => intro b c _ _; rfl
  | cons x xs ih =>
    intro b c hab hbc
    cases b with
    | nil => simp [strLe] at hab
    | cons y ys =>
      cases c with
      | nil => simp [strLe] at hbc
      | cons z zs =>
        simp only [strLe] at hab hbc ⊢
        rcases lt_trichotomy x y with h1 | h1 | h1
        · rcases lt_trichotomy y z with h2 | h2 | h2
          · rw [if_pos (lt_trans h1 h2)]
          · subst h2; rw [if_pos h1]
          · rw [if_neg (lt_asymm h2), if_pos h2] at hbc
            simp at hbc
        · subst h1
          rw [if_neg (lt_irrefl x), if_neg (lt_irrefl x)] at hab
          rcases lt_trichotomy x z with h2 | h2 | h2
          · rw [if_pos h2]
          · subst h2
            rw [if_neg (lt_irrefl x), if_neg (lt_irrefl x)] at hbc ⊢
            exact ih ys zs hab hbc
          · rw [if_neg (lt_asymm h2), if_pos h2] at hbc
            simp at hbc
        · rw [if_neg (lt_asymm h1), if_pos h1] at hab
          simp at hab

theorem strLe_antisymm : ∀ a b : List Char, strLe a b = true →
    strLe b a = true → a = b := by
  intro a
  induction a with
  | nil =>
    intro b hab hba
    cases b with
    | nil => rfl
    | cons y ys => simp [strLe] at hba
  | cons x xs ih =>
    intro b hab hba
    cases b with
    | nil => simp [strLe] at hab
    | cons y ys =>
      simp only [strLe] at hab hba
      rcases lt_trichotomy x y with h | h | h
      · rw [if_neg (lt_asymm h), if_pos h] at hba
        simp at hba
      · subst h
        rw [if_neg (lt_irrefl x), if_neg (lt_irrefl x)] at hab hba
        rw [ih ys hab hba]
      · rw [if_neg (lt_asymm h), if_pos h] at hab
        simp at hab

instance : IsTotal (List Char) entryRel := ⟨strLe_total⟩

instance : IsTrans (List Char) entryRel := ⟨strLe_trans⟩

instance : IsAntisymm (List Char) entryRel := ⟨strLe_antisymm⟩

theorem sortScored_perm (l : List (List Char)) : (sortScored l).Perm l :=
  List.perm_insertionSort entryRel l

theorem sortScored_sorted (l : List (List Char)) :
    List.Sorted entryRel (sortScored l) :=
  List.sorted_insertionSort entryRel l

theorem sortScored_eq_of_perm {l₁ l₂ : List (List Char)} (h : l₁.Perm l₂) :
    sortScored l₁ = sortScored l₂ :=
  List.eq_of_perm_of_sorted
    ((sortScored_perm l₁).trans (h.trans (sortScored_perm l₂).symm))
    (sortScored_sorted l₁) (sortScored_sorted l₂)

theorem collectNet_length (pinger : List Char → PingBehavior) :
    ∀ mirrors, (collectNet pinger mirrors).length = respondCount pinger mirrors := by
  intro mirrors
  induction mirrors with
  | nil => rfl
  | cons h t ih =>
    simp only [collectNet, respondCount, List.filterMap_cons, List.countP_cons] at ih ⊢
    cases hn : net_select pinger h with
    | ok e =>
      cases e with
      | none => simp [hn, ih]
      | some entry => simp [hn, ih]
    | handled e => simp [hn, ih]
    | uncaught e => simp [hn, ih]

theorem writeLines_all (lines : List (List Char))
    (hh : ∀ l ∈ lines, l.any (fun c => c == 'h') = true) :
    writeLines lines =
      some (lines.map fun l => l.dropWhile fun c => !(c == 'h')) := by
  induction lines with
  | nil => rfl
  | cons l rest ih =>
    simp only [writeLines, stripToURL]
    rw [if_pos (hh l (List.mem_cons_self _ _)),
      ih fun x hx => hh x (List.mem_cons_of_mem _ hx)]
    rfl

/-! ## Claim theorems -/

theorem chk_matches_bigEndianSpec_witness :
    (∀ b ∈ [1, 2, 3], b ≤ 255) ∧ ([1, 2, 3] : List Nat).length ≤ 131072 ∧
    chk [1, 2, 3] = specChk [1, 2, 3] :=
  ⟨by decide, by decide,
    chk_matches_bigEndianSpec [1, 2, 3] (by decide) (by decide)⟩

/-- C2: the code at the failing input: a 9 ms latency is rendered as the
one-character field `9` (line 48 compares `res == '00'+res` instead of
assigning), so the entry `9 b` sorts lexicographically after `010 a` even
though 9 < 10 — fixed 3-character zero-padding does not hold and
lexicographic order disagrees with numeric order inside 0..999. -/
theorem scoreEntry_padding_broken :
    scoreEntry 9 (cs "b") = cs "9 b" ∧
    scoreEntry 10 (cs "a") = cs "010 a" ∧
    strLe (scoreEntry 10 (cs "a")) (scoreEntry 9 (cs "b")) = true ∧
    strLe (scoreEntry 9 (cs "b")) (scoreEntry 10 (cs "a")) = false ∧
    9 < 10 := by
  refine ⟨by decide, by decide, by decide, by decide, by decide⟩

/-- C3: the receive loop returns a latency only when some datagram arriving
within the deadline is at least 20 bytes, at least as long as its declared IP
total length, and equals the reconstructed expected reply byte-for-byte from
offset 20; if no received datagram matches, it returns `none`. -/
theorem pingLoop_sound (payload : List Nat) (start timeout : ℚ)
    (events : List (ℚ × List Nat)) :
    (∀ lat, pingLoop payload start timeout events = some lat →
      ∃ t d, (t, d) ∈ events ∧ t ≤ start + timeout ∧ 20 ≤ d.length ∧
        declaredLen d ≤ d.length ∧ d.drop 20 = expectedReply payload ∧
        lat = t - start) ∧
    ((∀ t d, (t, d) ∈ events → d.drop 20 ≠ expectedReply payload) →
      pingLoop payload start timeout events = none) := by
  induction events with
  | nil =>
    refine ⟨fun lat h => ?_, fun _ => rfl⟩
    simp [pingLoop] at h
  | cons e rest ih =>
    obtain ⟨t, d⟩ := e
    constructor
    · intro lat h
      simp only [pingLoop] at h
      by_cases h1 : t ≤ start + timeout
      · rw [if_pos h1] at h
        by_cases h2 : d.length < 20 ∨ d.length < declaredLen d
        · rw [if_pos h2] at h
          obtain ⟨t', d', hmem, hrest⟩ := ih.1 lat h
          exact ⟨t', d', List.mem_cons_of_mem _ hmem, hrest⟩
        · rw [if_neg h2] at h
          by_cases h3 : d.drop 20 = expectedReply payload
          · rw [if_pos h3] at h
            have hl := Option.some.inj h
            exact ⟨t, d, List.mem_cons_self _ _, h1, by omega, by omega, h3,
              hl.symm⟩
          · rw [if_neg h3] at h
            obtain ⟨t', d', hmem, hrest⟩ := ih.1 lat h
            exact ⟨t', d', List.mem_cons_of_mem _ hmem, hrest⟩
      · rw [if_neg h1] at h
        cases h
    · intro hmis
      simp only [pingLoop]
      by_cases h1 : t ≤ start + timeout
      · rw [if_pos h1]
        by_cases h2 : d.length < 20 ∨ d.length < declaredLen d
        · rw [if_pos h2]
          exact ih.2 fun t' d' hm => hmis t' d' (List.mem_cons_of_mem _ hm)
        · rw [if_neg h2, if_neg (hmis t d (List.mem_cons_self _ _))]
          exact ih.2 fun t' d' hm => hmis t' d' (List.mem_cons_of_mem _ hm)
      · rw [if_neg h1]

theorem pingLoop_sound_witness :
    ∃ t d, (t, d) ∈ [((1 : ℚ), goodDgram)] ∧ t ≤ 0 + 2 ∧ 20 ≤ d.length ∧
      declaredLen d ≤ d.length ∧ d.drop 20 = expectedReply [0, 1] ∧
      (1 : ℚ) = t - 0 :=
  (pingLoop_sound [0, 1] 0 2 [((1 : ℚ), goodDgram)]).1 1 (by
    simp only [pingLoop]
    rw [if_pos (by norm_num : (1 : ℚ) ≤ 0 + 2),
      if_neg (by decide :
        ¬(goodDgram.length < 20 ∨ goodDgram.length < declaredLen goodDgram)),
      if_pos (by decide : goodDgram.drop 20 = expectedReply [0, 1])]
    norm_num)

/-- C4: for every timeout value, if no datagram matching the expected reply
arrives within the window the loop returns `none` (no error, no exception),
and any returned latency is bounded by the timeout because the deadline is
recomputed from the original send timestamp. -/
theorem pingLoop_deadline (payload : List Nat) (start timeout : ℚ)
    (events : List (ℚ × List Nat)) :
    ((∀ t d, (t, d) ∈ events → t ≤ start + timeout →
        d.drop 20 ≠ expectedReply payload) →
      pingLoop payload start timeout events = none) ∧
    (∀ lat, pingLoop payload start timeout events = some lat →
      lat ≤ timeout) := by
  induction events with
  | nil =>
    refine ⟨fun _ => rfl, fun lat h => ?_⟩
    simp [pingLoop] at h
  | cons e rest ih =>
    obtain ⟨t, d⟩ := e
    constructor
    · intro hmis
      simp only [pingLoop]
      by_cases h1 : t ≤ start + timeout
      · rw [if_pos h1]
        by_cases h2 : d.length < 20 ∨ d.length < declaredLen d
        · rw [if_pos h2]
          exact ih.1 fun t' d' hm ht => hmis t' d' (List.mem_cons_of_mem _ hm) ht
        · rw [if_neg h2, if_neg (hmis t d (List.mem_cons_self _ _) h1)]
          exact ih.1 fun t' d' hm ht => hmis t' d' (List.mem_cons_of_mem _ hm) ht
      · rw [if_neg h1]
    · intro lat h
      simp only [pingLoop] at h
      by_cases h1 : t ≤ start + timeout
      · rw [if_pos h1] at h
        by_cases h2 : d.length < 20 ∨ d.length < declaredLen d
        · rw [if_pos h2] at h
          exact ih.2 lat h
        · rw [if_neg h2] at h
          by_cases h3 : d.drop 20 = expectedReply payload
          · rw [if_pos h3] at h
            have hl := Option.some.inj h
            rw [← hl]
            linarith
          · rw [if_neg h3] at h
            exact ih.2 lat h
      · rw [if_neg h1] at h
        cases h

theorem pingLoop_deadline_witness :
    pingLoop [0, 1] 0 2 [((5 : ℚ), goodDgram)] = none :=
  (pingLoop_deadline [0, 1] 0 2 [((5 : ℚ), goodDgram)]).1 (by
    intro t d hm ht
    simp only [List.mem_singleton, Prod.mk.injEq] at hm
    obtain ⟨h1, _⟩ := hm
    rw [h1] at ht
    norm_num at ht)

/-- C5: the coordinator launches one worker per mirror and joins them all
before ranking: whatever order the workers run in (any permutation of the
mirror list), the collected entries are the same multiset, with exactly one
entry per responding mirror. -/
theorem collectNet_complete (pinger : List Char → PingBehavior)
    (mirrors sched : List (List Char)) (hperm : sched.Perm mirrors) :
    (collectNet pinger sched).Perm (collectNet pinger mirrors) ∧
    (collectNet pinger sched).length = respondCount pinger mirrors := by
  constructor
  · exact hperm.filterMap _
  · rw [collectNet_length]
    unfold respondCount
    exact hperm.countP_eq _

theorem collectNet_complete_witness :
    (collectNet demoPinger [cs "http://b", cs "http://a"]).Perm
      (collectNet demoPinger [cs "http://a", cs "http://b"]) ∧
    (collectNet demoPinger [cs "http://b", cs "http://a"]).length =
      respondCount demoPinger [cs "http://a", cs "http://b"] :=
  collectNet_complete demoPinger [cs "http://a", cs "http://b"]
    [cs "http://b", cs "http://a"] (by decide)

/-- C6: the code at the failing input — every probe raising the
`PermissionError` of an unprivileged raw-socket open: each worker catches it
through the `OSError` clause and logs it per mirror, no entry is collected,
and the run continues to a normal ranking over zero probed mirrors; no
distinguishable fatal error aborts the run. -/
theorem privilegeError_not_fatal :
    ([cs "http://a", cs "http://b"].map
        (net_select fun _ => .raises .permissionDenied) =
      [.handled .permissionDenied, .handled .permissionDenied]) ∧
    collectNet (fun _ => .raises .permissionDenied)
      [cs "http://a", cs "http://b"] = [] ∧
    selector (fetchRunState (fun _ => .raises .permissionDenied)
      [cs "http://a", cs "http://b"] []) 3 = some [] := by
  refine ⟨by decide, by decide, by decide⟩

/-- C7 counterexample: on the claim's own example entries the latency fields
hold no `h`, so `line.index('h')` on fetch.py line 207 raises `ValueError`
at the first sorted line and the selector yields no output at all instead of
`["a", "b"]`. -/
theorem selector_crashes_on_example :
    selector [cs "010 b", cs "005 a", cs "999 c"] 2 ≠ some [cs "a", cs "b"] := by
  decide

/-- C7 (amended): with `keep` in `[1, 10]`, the selector sorts the entries in
ascending full-string lexicographic order, keeps the first `keep`, and strips
each down to its first `h` — recovering the URL exactly when every entry
holds an `h`, as real entries do since their URLs start with `http`; URLs
not starting with `h`, as in the claim's literal example, crash the loop
instead. -/
theorem selector_sorted_take (scored : List (List Char)) (keep : Nat)
    (hkeep : 1 ≤ keep ∧ keep ≤ 10)
    (hh : ∀ l ∈ scored, l.any (fun c => c == 'h') = true) :
    selector scored keep =
      some (((sortScored scored).take keep).map
        fun l => l.dropWhile fun c => !(c == 'h')) := by
  unfold selector
  refine writeLines_all _ fun l hl => ?_
  have h1 : l ∈ sortScored scored := List.mem_of_mem_take hl
  exact hh l ((sortScored_perm scored).mem_iff.mp h1)

theorem selector_sorted_take_witness :
    (1 ≤ 2 ∧ 2 ≤ 10) ∧
    selector [cs "010 hb", cs "005 ha", cs "999 hc"] 2 =
      some [cs "ha", cs "hb"] := by
  refine ⟨by decide, ?_⟩
  have h := selector_sorted_take [cs "010 hb", cs "005 ha", cs "999 hc"] 2
    (by decide) (by decide)
  rw [h]
  decide

/-- C8: the checksum is self-validating: computing it over a packet with the
checksum field (bytes 2 and 3) zeroed, splicing the two result bytes into
that field and recomputing over the full packet yields zero, for every
header pair and payload; and an all-zero payload of even length checksums to
`0xFFFF`, emitted as bytes `FF FF`. -/
theorem chk_self_validating :
    (∀ t c payload,
      chk (t :: c :: (chk (t :: c :: 0 :: 0 :: payload) ++ payload)) = [0, 0]) ∧
    (∀ n, chk (List.replicate (2 * n) 0) = [255, 255]) :=
  ⟨chk_append_checksum, chk_zero_replicate⟩

/-- C9 counterexample: `netselect_scored` is a module global that is never
cleared, so a second fetch run in the same process starts from the first
run's entries: after probing `http://b` (10 ms), a later run probing only
`http://a` (999 ms) with `keep = 1` selects `http://b`, unlike the same run
started from an empty collection, which selects `http://a`. -/
theorem secondRun_sees_firstRun :
    selector (fetchRunState demoPinger [cs "http://a"]
        (fetchRunState demoPinger [cs "http://b"] [])) 1 ≠
      selector (fetchRunState demoPinger [cs "http://a"] []) 1 := by
  decide

/-- C9 (amended): the probe-result collection is module-scoped, not
run-scoped: it survives ranking, and after two consecutive fetch runs the
global list holds the sorted concatenation of the prior contents with both
runs' entries, so the second ranking is computed over the first run's
results as well. -/
theorem fetchRunState_accumulates (pinger : List Char → PingBehavior)
    (m1 m2 state : List (List Char)) :
    fetchRunState pinger m2 (fetchRunState pinger m1 state) =
      sortScored (state ++ collectNet pinger m1 ++ collectNet pinger m2) := by
  unfold fetchRunState
  exact sortScored_eq_of_perm (List.Perm.append_right _ (sortScored_perm _))

/-- C10: a candidate host the regex does not match leaves `domain` unbound,
so the worker raises `NameError`, which is not among the caught exception
kinds: it neither appends a result nor logs a handled error. -/
theorem net_select_nameError (pinger : List Char → PingBehavior)
    (host : List Char) (h : regexDomain host = none) :
    net_select pinger host = .uncaught .nameError := by
  unfold net_select
  rw [h]
  rfl

theorem net_select_nameError_witness :
    regexDomain (cs "ftp://x") = none ∧
    net_select (fun _ => .returns none) (cs "ftp://x") = .uncaught .nameError :=
  ⟨by decide, net_select_nameError _ _ (by decide)⟩

end Nala
